import Mathlib

set_option maxRecDepth 8000

/-!
Shallow embedding of `src/live-dashboard.py` (Smart Study Area Climate
Dashboard).  Python floats are modelled as rationals (`ℚ`); `NaN` where it
matters is modelled by `Option ℚ` with `none` standing for a missing value.
Timestamps are rationals measured in minutes, so `timedelta(minutes=m)` is
just the rational `m`.  The `deque(maxlen=MAX_POINTS)` buffer is a list held
oldest-first; the lock only serialises access and has no sequential content,
so it is dropped from the embedding.
-/

/-- A buffered sample: `{"ts": ..., "temperature": ..., "humidity": ...}`
as built by `safe_append` (line 29 of `live-dashboard.py`). -/
structure Sample where
  ts : ℚ
  temperature : ℚ
  humidity : ℚ
deriving DecidableEq, Repr

/-- `MAX_POINTS = 1500` (line 24). -/
def MAX_POINTS : ℕ := 1500

/-- `collections.deque(maxlen=n).append`: append at the tail; when the deque
is already at capacity the head (oldest element) is discarded first. -/
def dequeAppend (maxlen : ℕ) (buf : List Sample) (s : Sample) : List Sample :=
  if buf.length < maxlen then buf ++ [s] else buf.tail ++ [s]

/-- `safe_append(t, h)` (lines 27-29): build the sample record with the
current timestamp and push it into the bounded deque. -/
def safe_append (now t h : ℚ) (buf : List Sample) : List Sample :=
  dequeAppend MAX_POINTS buf ⟨now, t, h⟩

/-- Run a whole sequence of `safe_append`-style pushes, oldest first,
starting from a given buffer. -/
def appendAll (buf : List Sample) (l : List Sample) : List Sample :=
  l.foldl (dequeAppend MAX_POINTS) buf

theorem appendAll_step (l : List Sample) (s : Sample) :
    appendAll [] (l ++ [s]) = dequeAppend MAX_POINTS (appendAll [] l) s := by
  simp [appendAll, List.foldl_append]

/-- Core characterisation: a run of appends into the empty bounded deque
keeps exactly the last `MAX_POINTS` elements of the appended sequence, in
order. -/
theorem appendAll_eq_drop (l : List Sample) :
    appendAll [] l = l.drop (l.length - MAX_POINTS) := by
  induction l using List.reverseRecOn with
  | nil => simp [appendAll]
  | append_singleton l s ih =>
      rw [appendAll_step, ih]
      by_cases hlt : l.length < MAX_POINTS
      · have h0 : l.length - MAX_POINTS = 0 := Nat.sub_eq_zero_of_le (Nat.le_of_lt hlt)
        have h2 : (l ++ [s]).length - MAX_POINTS = 0 := by
          simp only [List.length_append, List.length_cons, List.length_nil]
          omega
        rw [h0, List.drop_zero, h2, List.drop_zero]
        simp only [dequeAppend]
        split
        · rfl
        · next hcon => exact absurd hlt hcon
      · have hle : MAX_POINTS ≤ l.length := Nat.not_lt.mp hlt
        have hlen : (l.drop (l.length - MAX_POINTS)).length = MAX_POINTS := by
          rw [List.length_drop]; omega
        simp only [dequeAppend]
        split
        · next hcon => rw [hlen] at hcon; omega
        · rw [List.tail_drop]
          have hidx : (l ++ [s]).length - MAX_POINTS = l.length + 1 - MAX_POINTS := by
            simp only [List.length_append, List.length_cons, List.length_nil]
          rw [hidx]
          have hM : 0 < MAX_POINTS := by decide
          have hle2 : l.length + 1 - MAX_POINTS ≤ l.length := by omega
          rw [List.drop_append_of_le_length hle2]
          have hidx2 : l.length - MAX_POINTS + 1 = l.length + 1 - MAX_POINTS := by omega
          rw [hidx2]

/-- Sum a digit string into a natural number, most significant digit
first (the usual base-10 reading used by numeric string conversion). -/
def digitsVal (cs : List Char) : ℕ :=
  cs.foldl (fun a c => 10 * a + (c.toNat - 48)) 0

/-- Modelled after CPython's `float(str)` on an unsigned literal, restricted
to plain decimal forms `digits`, `digits.digits`, `digits.` and `.digits`
(at least one digit overall).  Any other string — `"abc"`, `""`, `"1.2.3"` —
fails, which in `on_message` lands in the `except` branch.  The exotic
accepted spellings of CPython (exponents, `inf`, `nan`, underscores,
surrounding whitespace) are outside the model; all payloads named by the
spec are plain decimal. -/
def pyFloatCore (cs : List Char) : Option ℚ :=
  let ip := cs.takeWhile Char.isDigit
  match cs.dropWhile Char.isDigit with
  | [] => if ip.isEmpty then none else some (digitsVal ip)
  | '.' :: fp =>
      if fp.all Char.isDigit && !(ip.isEmpty && fp.isEmpty) then
        some ((digitsVal ip : ℚ) + (digitsVal fp : ℚ) / (10 : ℚ) ^ fp.length)
      else none
  | _ => none

/-- `float(str)` with an optional leading sign. -/
def pyFloat (cs : List Char) : Option ℚ :=
  match cs with
  | '+' :: rest => pyFloatCore rest
  | '-' :: rest => (pyFloatCore rest).map (fun q => -q)
  | _ => pyFloatCore cs

/-- `str.split(",")`: split a character list at every comma; the empty
string yields `[""]`, a trailing comma yields a trailing empty field,
exactly as in Python. -/
def splitComma (cs : List Char) : List (List Char) :=
  match cs with
  | [] => [[]]
  | c :: rest =>
      if c = ',' then [] :: splitComma rest
      else
        match splitComma rest with
        | [] => [[c]]
        | f :: fs => (c :: f) :: fs

/-- The range predicate of line 34: `-10 < t < 60 and 0 <= h <= 100`. -/
def inBounds (t h : ℚ) : Prop :=
  -10 < t ∧ t < 60 ∧ 0 ≤ h ∧ h ≤ 100

instance (t h : ℚ) : Decidable (inBounds t h) := by
  unfold inBounds; exact inferInstance

/-- The validation-plus-append step shared by every accepted reading
(lines 34-35): in-range readings are appended via `safe_append`,
out-of-range readings are dropped (logged only). -/
def ingest (now t h : ℚ) (store : List Sample) : List Sample :=
  if inBounds t h then safe_append now t h store else store

/-- `map(float, msg.payload.decode().split(",")[:2])` unpacked into `t, h`
(line 33): the parse succeeds only when the split yields at least two
fields and the first two both read as floats; any failure (too few fields,
a non-numeric field) raises and is caught by the handler. -/
def parseTwo (raw : String) : Option (ℚ × ℚ) :=
  match (splitComma raw.data).take 2 with
  | [a, b] =>
      match pyFloat a, pyFloat b with
      | some t, some h => some (t, h)
      | _, _ => none
  | _ => none

/-- `on_message` (lines 31-37): parse, range-check, append; every parse
failure is swallowed by the `except` clause, leaving the store unchanged. -/
def on_message (now : ℚ) (raw : String) (store : List Sample) : List Sample :=
  match parseTwo raw with
  | some (t, h) => ingest now t h store
  | none => store

/-- C1: For every sequence of appends to the Sample Store the buffer holds
exactly the last `MAX_POINTS` appended samples in order (so its size never
exceeds `MAX_POINTS = 1500`), and one further append keeps exactly the last
`MAX_POINTS` of the extended sequence — i.e. when capacity would be
exceeded, precisely the oldest still-held sample (the head) is evicted:
strict FIFO ring-buffer discipline. -/
theorem C1_ring_buffer_fifo (l : List Sample) :
    appendAll [] l = l.drop (l.length - MAX_POINTS)
    ∧ (appendAll [] l).length ≤ MAX_POINTS
    ∧ ∀ s : Sample, dequeAppend MAX_POINTS (appendAll [] l) s
        = (l ++ [s]).drop ((l.length + 1) - MAX_POINTS) := by
  have hmain : appendAll [] l = l.drop (l.length - MAX_POINTS) := appendAll_eq_drop l
  refine ⟨hmain, ?_, ?_⟩
  · rw [hmain]
    rw [List.length_drop]
    omega
  · intro s
    have hext : appendAll [] (l ++ [s])
        = (l ++ [s]).drop (((l ++ [s]).length) - MAX_POINTS) := appendAll_eq_drop (l ++ [s])
    rw [← appendAll_step, hext]
    have hidx : (l ++ [s]).length - MAX_POINTS = l.length + 1 - MAX_POINTS := by
      simp only [List.length_append, List.length_cons, List.length_nil]
    rw [hidx]

theorem parseTwo_accept : parseTwo "25.0,55.0" = some (25, 55) := by
  simp +decide [parseTwo, pyFloat, pyFloatCore, splitComma, digitsVal]

theorem parseTwo_out_of_range : parseTwo "100.0,55.0" = some (100, 55) := by
  simp +decide [parseTwo, pyFloat, pyFloatCore, splitComma, digitsVal]

theorem parseTwo_garbage : parseTwo "abc,55.0" = none := by
  simp +decide [parseTwo, pyFloat, pyFloatCore, splitComma, digitsVal]

/-- C2: a raw inbound message changes the store exactly when its first two
comma-separated fields parse as floats inside the validation ranges, in
which case the parsed sample is appended; in every other case the store is
returned unchanged (the ingestion boundary is a total function: no
exception escapes).  The three payloads named by the spec behave as
claimed. -/
theorem C2_ingestion_validation (now : ℚ) (store : List Sample) (raw : String) :
    ((∃ t h, parseTwo raw = some (t, h) ∧ inBounds t h
        ∧ on_message now raw store = safe_append now t h store)
      ∨ (on_message now raw store = store
        ∧ ∀ t h, parseTwo raw = some (t, h) → ¬ inBounds t h))
    ∧ on_message now "25.0,55.0" store = safe_append now 25 55 store
    ∧ on_message now "100.0,55.0" store = store
    ∧ on_message now "abc,55.0" store = store := by
  refine ⟨?_, ?_, ?_, ?_⟩
  · rcases hp : parseTwo raw with _ | ⟨t, h⟩
    · refine Or.inr ⟨by simp [on_message, hp], ?_⟩
      intro t h heq
      exact absurd heq (by simp)
    · by_cases hb : inBounds t h
      · exact Or.inl ⟨t, h, rfl, hb, by simp [on_message, hp, ingest, hb]⟩
      · refine Or.inr ⟨by simp [on_message, hp, ingest, hb], ?_⟩
        intro t' h' heq
        have ht : t = t' ∧ h = h' := by
          have := heq
          simp only [Option.some.injEq, Prod.mk.injEq] at this
          exact this
        rcases ht with ⟨h1, h2⟩
        rw [← h1, ← h2]
        exact hb
  · simp [on_message, parseTwo_accept, ingest, if_pos (show inBounds 25 55 by decide)]
  · simp [on_message, parseTwo_out_of_range, ingest,
      if_neg (show ¬ inBounds 100 55 by decide)]
  · simp [on_message, parseTwo_garbage]

/-- Insert a sample into a list that is already in ascending-timestamp
order, keeping the order. -/
def insertByTs (s : Sample) : List Sample → List Sample
  | [] => [s]
  | b :: l => if s.ts ≤ b.ts then s :: b :: l else b :: insertByTs s l

/-- `DataFrame.sort_values("ts")`: the result is some ascending-timestamp
rearrangement of the input (pandas' quicksort is not stable, so only the
multiset and the order are specified); modelled by insertion sort. -/
def sortByTs (l : List Sample) : List Sample := l.foldr insertByTs []

theorem insertByTs_perm (s : Sample) (l : List Sample) :
    (insertByTs s l).Perm (s :: l) := by
  induction l with
  | nil => simp [insertByTs]
  | cons b l ih =>
      rw [insertByTs]
      by_cases hle : s.ts ≤ b.ts
      · rw [if_pos hle]
      · rw [if_neg hle]
        exact (ih.cons b).trans (List.Perm.swap s b l)

theorem sortByTs_perm (l : List Sample) : (sortByTs l).Perm l := by
  induction l with
  | nil => simp [sortByTs]
  | cons b l ih =>
      have : sortByTs (b :: l) = insertByTs b (sortByTs l) := rfl
      rw [this]
      exact (insertByTs_perm b (sortByTs l)).trans (ih.cons b)

theorem insertByTs_sorted (s : Sample) (l : List Sample)
    (h : l.Pairwise (fun a b => a.ts ≤ b.ts)) :
    (insertByTs s l).Pairwise (fun a b => a.ts ≤ b.ts) := by
  induction l with
  | nil => simp [insertByTs]
  | cons b l ih =>
      rw [insertByTs]
      rcases List.pairwise_cons.mp h with ⟨hbl, hl⟩
      by_cases hle : s.ts ≤ b.ts
      · rw [if_pos hle]
        refine List.pairwise_cons.mpr ⟨?_, h⟩
        intro x hx
        rcases List.mem_cons.mp hx with rfl | hx
        · exact hle
        · exact le_trans hle (hbl x hx)
      · rw [if_neg hle]
        refine List.pairwise_cons.mpr ⟨?_, ih hl⟩
        intro x hx
        have hx2 : x ∈ s :: l := (insertByTs_perm s l).mem_iff.mp hx
        rcases List.mem_cons.mp hx2 with rfl | hx2
        · exact le_of_not_le hle
        · exact hbl x hx2

theorem sortByTs_sorted (l : List Sample) :
    (sortByTs l).Pairwise (fun a b => a.ts ≤ b.ts) := by
  induction l with
  | nil => simp [sortByTs]
  | cons b l ih => exact insertByTs_sorted b (sortByTs l) ih

/-- `df_buf(mins)` (lines 65-74): snapshot the buffer under the lock; an
empty snapshot yields the empty frame; a positive window keeps only rows
with `ts > now - timedelta(minutes=mins)` (strict); the result is sorted by
timestamp ascending.  `now` is the `datetime.utcnow()` read during the
call; timestamps are in minutes, so the timedelta is the rational `mins`
itself. -/
def df_buf (now mins : ℚ) (store : List Sample) : List Sample :=
  let rows := store
  if rows.isEmpty then []
  else
    let df := if 0 < mins then rows.filter (fun s => decide (now - mins < s.ts)) else rows
    sortByTs df

/-- C3: for a positive window, `df_buf` returns exactly the samples of the
snapshot whose timestamp is strictly later than `now - mins` (as a
multiset: a permutation of the strict filter), in ascending-timestamp
order; a sample sitting exactly on the boundary `now - mins` is excluded. -/
theorem C3_window_query (now mins : ℚ) (store : List Sample) (hm : 0 < mins) :
    (df_buf now mins store).Perm
        (store.filter (fun s => decide (now - mins < s.ts)))
    ∧ (df_buf now mins store).Pairwise (fun a b => a.ts ≤ b.ts)
    ∧ (∀ s : Sample, s ∈ df_buf now mins store ↔ s ∈ store ∧ now - mins < s.ts)
    ∧ ∀ s ∈ store, s.ts = now - mins → s ∉ df_buf now mins store := by
  have hdf : df_buf now mins store
      = sortByTs (store.filter (fun s => decide (now - mins < s.ts))) := by
    rcases store with _ | ⟨a, store⟩
    · simp [df_buf, sortByTs]
    · simp only [df_buf, List.isEmpty_cons, if_neg, Bool.false_eq_true,
        not_false_eq_true, if_pos hm]
  have hperm : (df_buf now mins store).Perm
      (store.filter (fun s => decide (now - mins < s.ts))) := by
    rw [hdf]; exact sortByTs_perm _
  have hmem : ∀ s : Sample, s ∈ df_buf now mins store ↔ s ∈ store ∧ now - mins < s.ts := by
    intro s
    rw [hperm.mem_iff, List.mem_filter]
    simp
  refine ⟨hperm, ?_, hmem, ?_⟩
  · rw [hdf]; exact sortByTs_sorted _
  · intro s _ hts hin
    have := ((hmem s).mp hin).2
    rw [hts] at this
    exact lt_irrefl _ this

/-- Concrete run of C3: with `now = 10` and a 5-minute window, the sample
stamped 6 survives, the boundary sample stamped exactly 5 is excluded. -/
theorem C3_window_query_witness :
    (⟨6, 1, 2⟩ : Sample) ∈ df_buf 10 5 [⟨6, 1, 2⟩, ⟨3, 1, 2⟩, ⟨5, 1, 2⟩]
    ∧ (⟨5, 1, 2⟩ : Sample) ∉ df_buf 10 5 [⟨6, 1, 2⟩, ⟨3, 1, 2⟩, ⟨5, 1, 2⟩] := by
  have h := C3_window_query 10 5 [⟨6, 1, 2⟩, ⟨3, 1, 2⟩, ⟨5, 1, 2⟩] (by norm_num)
  constructor
  · exact (h.2.2.1 _).mpr ⟨by simp, by norm_num⟩
  · exact h.2.2.2 _ (by simp) (by norm_num)

/-- C4: `df_buf(0)` ("all data") returns the full snapshot as an
ascending-timestamp rearrangement; an empty store yields the well-defined
empty result for every window, and so does a positive window whose filter
excludes every sample. -/
theorem C4_all_data_and_empty (now m : ℚ) (store : List Sample) :
    (df_buf now 0 store).Perm store
    ∧ (df_buf now 0 store).Pairwise (fun a b => a.ts ≤ b.ts)
    ∧ df_buf now m [] = []
    ∧ (0 < m → (∀ s ∈ store, s.ts ≤ now - m) → df_buf now m store = []) := by
  have hdf0 : df_buf now 0 store = sortByTs store := by
    rcases store with _ | ⟨a, store⟩
    · simp [df_buf, sortByTs]
    · simp [df_buf]
  refine ⟨?_, ?_, ?_, ?_⟩
  · rw [hdf0]; exact sortByTs_perm _
  · rw [hdf0]; exact sortByTs_sorted _
  · simp [df_buf]
  · intro hm hall
    rcases store with _ | ⟨a, store⟩
    · simp [df_buf]
    · simp only [df_buf, List.isEmpty_cons, Bool.false_eq_true, if_neg,
        not_false_eq_true, if_pos hm]
      have hnil : (a :: store).filter (fun s => decide (now - m < s.ts)) = [] := by
        rw [List.filter_eq_nil_iff]
        intro s hs
        simp only [decide_eq_true_eq]
        exact not_lt.mpr (by linarith [hall s hs])
      simp [hnil, sortByTs]

/-- `safe_range(lo, hi, expand)` (lines 79-88): a missing bound gives the
fixed unit range; a degenerate or inverted pair `hi <= lo` gives the range
of width `2*expand` centred on `lo`; a proper pair passes through.  `NaN`
(`pd.isna`) is modelled by `none`; the `except` arm is unreachable for
rational inputs. -/
def safe_range (lo hi : Option ℚ) (expand : ℚ) : ℚ × ℚ :=
  match lo, hi with
  | some l, some h => if h ≤ l then (l - expand, l + expand) else (l, h)
  | _, _ => (0, 1)

/-- C5: `safe_range` returns `(0, 1)` when either bound is missing,
`(lo - expand, lo + expand)` when `hi <= lo`, and `(lo, hi)` otherwise;
in particular `safe_range(5, 5, 0.1) = (4.9, 5.1)`,
`safe_range(NaN, 5, 0.1) = (0.0, 1.0)` and `safe_range(2, 8, 0.1) = (2, 8)`. -/
theorem C5_safe_range (lo hi : Option ℚ) (e l h : ℚ) :
    safe_range none hi e = (0, 1)
    ∧ safe_range lo none e = (0, 1)
    ∧ (h ≤ l → safe_range (some l) (some h) e = (l - e, l + e))
    ∧ (l < h → safe_range (some l) (some h) e = (l, h))
    ∧ safe_range (some 5) (some 5) (1/10) = (49/10, 51/10)
    ∧ safe_range none (some 5) (1/10) = (0, 1)
    ∧ safe_range (some 2) (some 8) (1/10) = (2, 8) := by
  refine ⟨?_, ?_, ?_, ?_, ?_, rfl, ?_⟩
  · rfl
  · rcases lo with _ | l2 <;> rfl
  · intro hle; simp [safe_range, if_pos hle]
  · intro hlt; simp [safe_range, if_neg (not_le.mpr hlt)]
  · norm_num [safe_range]
  · norm_num [safe_range]

/-- One tick of `simulate()` (lines 54-57): append the reading
`(29 + nt, 80 + nh)` where `nt, nh` are the values drawn by
`random.uniform(-0.5, 0.5)`; the code calls `safe_append` directly. -/
def simStep (now nt nh : ℚ) (store : List Sample) : List Sample :=
  safe_append now (29 + nt) (80 + nh) store

/-- C7: every simulated reading is the baseline `(29, 80)` perturbed by the
bounded noise, lies inside the validation ranges, and the direct
`safe_append` of the simulator produces exactly the store the Ingestion
Validator (`ingest`, the accepted branch of `on_message`) would produce for
that reading: the two routes are observationally equal. -/
theorem C7_simulator_matches_validator (now nt nh : ℚ) (store : List Sample)
    (h1 : -(1/2) ≤ nt) (h2 : nt ≤ 1/2) (h3 : -(1/2) ≤ nh) (h4 : nh ≤ 1/2) :
    inBounds (29 + nt) (80 + nh)
    ∧ simStep now nt nh store = ingest now (29 + nt) (80 + nh) store
    ∧ ingest now (29 + nt) (80 + nh) store
        = safe_append now (29 + nt) (80 + nh) store := by
  have hb : inBounds (29 + nt) (80 + nh) :=
    ⟨by linarith, by linarith, by linarith, by linarith⟩
  have hi : ingest now (29 + nt) (80 + nh) store
      = safe_append now (29 + nt) (80 + nh) store := by
    simp [ingest, if_pos hb]
  exact ⟨hb, by rw [simStep, hi], hi⟩

/-- Concrete run of C7 at zero noise on the empty store. -/
theorem C7_simulator_matches_validator_witness :
    inBounds (29 + 0) (80 + 0)
    ∧ simStep 3 0 0 [] = ingest 3 (29 + 0) (80 + 0) []
    ∧ ingest 3 (29 + 0) (80 + 0) [] = safe_append 3 (29 + 0) (80 + 0) [] :=
  C7_simulator_matches_validator 3 0 0 []
    (by norm_num) (by norm_num) (by norm_num) (by norm_num)

/-- The operations that touch the buffer: a live MQTT message
(`on_message`), a simulator tick (`simulate`'s body), and a dashboard query
(`df_buf`, which snapshots under the lock).  Each carries the wall-clock
instant at which it runs. -/
inductive Op where
  | msg (now : ℚ) (raw : String)
  | sim (now nt nh : ℚ)
  | query (now mins : ℚ)

/-- Run one operation: the new store contents, and the value the operation
hands back to its caller (the query's data frame). -/
def runOp (store : List Sample) : Op → List Sample × Option (List Sample)
  | .msg now raw => (on_message now raw store, none)
  | .sim now nt nh => (simStep now nt nh store, none)
  | .query now mins => (store, some (df_buf now mins store))

/-- Run a sequence of operations, oldest first. -/
def runOps (store : List Sample) (ops : List Op) : List Sample :=
  ops.foldl (fun st op => (runOp st op).1) store

/-- C8: a query never changes the store and its returned frame is a pure
function (an independent copy) of the store contents at query time — being
a value, it cannot be mutated by, nor observe, any later append; and any
operation that does change the store does so exactly by a `safe_append`
of one sample, i.e. successful validation/append is the only mutator. -/
theorem C8_query_frame (store : List Sample) :
    (∀ now mins : ℚ, (runOp store (.query now mins)).1 = store
      ∧ (runOp store (.query now mins)).2 = some (df_buf now mins store))
    ∧ ∀ op : Op, (runOp store op).1 ≠ store →
        ∃ now t h : ℚ, (runOp store op).1 = safe_append now t h store := by
  refine ⟨fun now mins => ⟨rfl, rfl⟩, ?_⟩
  intro op hne
  rcases op with ⟨now, raw⟩ | ⟨now, nt, nh⟩ | ⟨now, mins⟩
  · rcases hp : parseTwo raw with _ | ⟨t, h⟩
    · exact absurd (by simp [runOp, on_message, hp]) hne
    · by_cases hb : inBounds t h
      · exact ⟨now, t, h, by simp [runOp, on_message, hp, ingest, hb]⟩
      · exact absurd (by simp [runOp, on_message, hp, ingest, hb]) hne
  · exact ⟨now, 29 + nt, 80 + nh, rfl⟩
  · exact absurd rfl hne

/-- Noise bounds guaranteed by `random.uniform(-0.5, 0.5)` for simulator
ticks; the other operations carry no noise. -/
def boundedNoise : Op → Prop
  | .sim _ nt nh => -(1/2) ≤ nt ∧ nt ≤ 1/2 ∧ -(1/2) ≤ nh ∧ nh ≤ 1/2
  | _ => True

theorem mem_dequeAppend (buf : List Sample) (s x : Sample)
    (hx : x ∈ dequeAppend MAX_POINTS buf s) : x ∈ buf ∨ x = s := by
  rw [dequeAppend] at hx
  have htail : buf.tail ⊆ buf := List.tail_subset buf
  rcases (by split at hx <;> [exact Or.inl hx; exact Or.inr hx] :
      x ∈ buf ++ [s] ∨ x ∈ buf.tail ++ [s]) with hx2 | hx2
  · rcases List.mem_append.mp hx2 with h1 | h1
    · exact Or.inl h1
    · exact Or.inr (by simpa using h1)
  · rcases List.mem_append.mp hx2 with h1 | h1
    · exact Or.inl (htail h1)
    · exact Or.inr (by simpa using h1)

theorem runOp_preserves_inBounds (store : List Sample)
    (hstore : ∀ s ∈ store, inBounds s.temperature s.humidity)
    (op : Op) (hop : boundedNoise op) :
    ∀ s ∈ (runOp store op).1, inBounds s.temperature s.humidity := by
  intro s hs
  rcases op with ⟨now, raw⟩ | ⟨now, nt, nh⟩ | ⟨now, mins⟩
  · simp only [runOp] at hs
    rw [on_message] at hs
    rcases hp : parseTwo raw with _ | ⟨t, h⟩
    · rw [hp] at hs; exact hstore s hs
    · rw [hp] at hs
      simp only [ingest] at hs
      by_cases hb : inBounds t h
      · rw [if_pos hb] at hs
        rcases mem_dequeAppend store _ s hs with h1 | h1
        · exact hstore s h1
        · rw [h1]; exact hb
      · rw [if_neg hb] at hs; exact hstore s hs
  · simp only [runOp, simStep, safe_append] at hs
    rcases mem_dequeAppend store _ s hs with h1 | h1
    · exact hstore s h1
    · rw [h1]
      show inBounds (29 + nt) (80 + nh)
      rcases hop with ⟨h1, h2, h3, h4⟩
      exact ⟨by linarith, by linarith, by linarith, by linarith⟩
  · exact hstore s hs

/-- C10: starting from the empty store, after any sequence of live
messages, simulator ticks (with their `uniform(-0.5, 0.5)` noise bounds)
and queries, every sample ever held in the store satisfies
`-10 < temperature < 60` and `0 ≤ humidity ≤ 100`: the live path checks
the bounds explicitly and the simulator's direct `safe_append` only ever
writes `29 ± 0.5` and `80 ± 0.5`, strictly inside them. -/
theorem C10_store_bounds_invariant (ops : List Op)
    (hops : ∀ op ∈ ops, boundedNoise op) :
    ∀ s ∈ runOps [] ops,
      -10 < s.temperature ∧ s.temperature < 60
        ∧ 0 ≤ s.humidity ∧ s.humidity ≤ 100 := by
  suffices hgen : ∀ (ops : List Op), (∀ op ∈ ops, boundedNoise op) →
      ∀ (store : List Sample), (∀ s ∈ store, inBounds s.temperature s.humidity) →
      ∀ s ∈ runOps store ops, inBounds s.temperature s.humidity by
    intro s hs
    exact hgen ops hops [] (by simp) s hs
  intro ops
  induction ops with
  | nil =>
      intro _ store hstore s hs
      exact hstore s (by simpa [runOps] using hs)
  | cons op ops ih =>
      intro hall store hstore s hs
      have hstep : ∀ x ∈ (runOp store op).1, inBounds x.temperature x.humidity :=
        runOp_preserves_inBounds store hstore op (hall op (by simp))
      have hrest : runOps store (op :: ops) = runOps ((runOp store op).1) ops := rfl
      rw [hrest] at hs
      exact ih (fun o ho => hall o (by simp [ho])) _ hstep s hs

/-- Mean of a column, `sum/len` (0-length only arises for the empty frame,
which `update` never passes to `corr`). -/
def mean (l : List ℚ) : ℚ := l.sum / (l.length : ℚ)

/-- Centered cross sum `Σ (x - x̄)(y - ȳ)` over paired columns; the common
`1/(n-1)` normalisation of covariance cancels in the correlation quotient
and is omitted. -/
def centeredSum (xs ys : List ℚ) : ℚ :=
  (List.zipWith (fun x y => (x - mean xs) * (y - mean ys)) xs ys).sum

/-- One entry of pandas `DataFrame.corr` for numeric columns `xs`, `ys`
with no missing values: `NaN` (modelled `none`) exactly when either
column's centered square sum is zero — fewer than 2 rows, or a constant
column — since then the Pearson quotient is 0/0.  A defined entry is
represented by `sign(Sxy) * Sxy^2 / (Sxx * Syy)`, the signed square of the
Pearson coefficient `Sxy / √(Sxx·Syy)`: this avoids the irrational square
root while agreeing with Pearson on the diagonal (value 1) and in sign and
in attaining 0 and ±1. -/
def corrEntry (xs ys : List ℚ) : Option ℚ :=
  let sxx := centeredSum xs xs
  let syy := centeredSum ys ys
  let sxy := centeredSum xs ys
  if sxx = 0 ∨ syy = 0 then none
  else some ((if sxy < 0 then -1 else 1) * sxy ^ 2 / (sxx * syy))

/-- `df[["temperature","humidity"]].corr()` (line 232): with both columns
present and numeric the result is always a 2×2 matrix, whatever the row
count or degeneracy — undefined correlations appear as `NaN` entries, not
as a smaller matrix. -/
def corrMatrix (rows : List (ℚ × ℚ)) : List (List (Option ℚ)) :=
  let temps := rows.map Prod.fst
  let hums := rows.map Prod.snd
  [[corrEntry temps temps, corrEntry temps hums],
   [corrEntry hums temps, corrEntry hums hums]]

/-- `c.shape` of the modelled frame: (rows, columns of the first row). -/
def matShape (m : List (List (Option ℚ))) : ℕ × ℕ := (m.length, (m.headD []).length)

/-- The identity fallback of line 234. -/
def identityCorr : List (List (Option ℚ)) := [[some 1, some 0], [some 0, some 1]]

/-- Lines 232-234: substitute the identity matrix when — and only when —
the correlation matrix's shape differs from `(2, 2)`. -/
def updateCorr (rows : List (ℚ × ℚ)) : List (List (Option ℚ)) :=
  let c := corrMatrix rows
  if matShape c ≠ (2, 2) then identityCorr else c

/-- C6 (the code contradicts the claim): for two numeric columns the
correlation matrix's shape is `(2, 2)` for every window, so the
`c.shape != (2,2)` guard of line 233 never fires and `updateCorr` always
passes `corr`'s result through; on the single-sample window `[(25, 55)]`
(which `update` reaches, since only emptiness is filtered earlier) every
entry is `NaN` (`none`) and the rendered matrix is not the claimed
identity. -/
theorem C6_identity_fallback_never_fires (rows : List (ℚ × ℚ)) :
    matShape (corrMatrix rows) = (2, 2)
    ∧ updateCorr rows = corrMatrix rows
    ∧ updateCorr [(25, 55)] = [[none, none], [none, none]]
    ∧ updateCorr [(25, 55)] ≠ identityCorr := by
  refine ⟨rfl, ?_, ?_, ?_⟩
  · simp [updateCorr, matShape, corrMatrix]
  · norm_num [updateCorr, matShape, corrMatrix, corrEntry, centeredSum, mean]
  · norm_num [updateCorr, matShape, corrMatrix, corrEntry, centeredSum, mean,
      identityCorr]
    intro h
    exact absurd h (by simp)

/-- A figure handed to the Dash renderer: the `go.Figure()` placeholder or
a populated chart. -/
inductive Fig where
  | emptyFig
  | chart (title : String)
deriving DecidableEq

/-- The `try`/`except` boundary of the polling callback `update`
(lines 215-268): the body's outcome is an `Except` — `ok` with the five
outputs, or `error` with the message of the exception raised during
query/analytics — and the `except` arm (lines 264-268) maps any error to
four empty figures plus the diagnostic string, so the callback itself is a
total function and every subsequent poll is served afresh. -/
def updateBoundary (body : Except String (Fig × Fig × Fig × Fig × String)) :
    Fig × Fig × Fig × Fig × String :=
  match body with
  | .ok o => o
  | .error e =>
      (Fig.emptyFig, Fig.emptyFig, Fig.emptyFig, Fig.emptyFig,
        "Error generating charts — " ++ e)

/-- C9 (intent of lines 215-268, which as committed never load — see the
stray non-comment line 236): every failure of the body is caught at the
boundary and mapped to the placeholder outputs with an error message, and
a successful body passes through, so polling always gets an answer. -/
theorem C9_update_catches_failures (e : String)
    (o : Fig × Fig × Fig × Fig × String) :
    updateBoundary (Except.error e)
      = (Fig.emptyFig, Fig.emptyFig, Fig.emptyFig, Fig.emptyFig,
          "Error generating charts — " ++ e)
    ∧ updateBoundary (Except.ok o) = o :=
  ⟨rfl, rfl⟩

/-- Concrete run of C10: after one live message `"25.0,55.0"` and one
zero-noise simulator tick, the simulator-produced sample obeys the bounds. -/
theorem C10_store_bounds_invariant_witness :
    -10 < (Sample.mk 1 (29 + 0) (80 + 0)).temperature
    ∧ (Sample.mk 1 (29 + 0) (80 + 0)).temperature < 60
    ∧ 0 ≤ (Sample.mk 1 (29 + 0) (80 + 0)).humidity
    ∧ (Sample.mk 1 (29 + 0) (80 + 0)).humidity ≤ 100 := by
  have hrun : runOps [] [Op.msg 0 "25.0,55.0", Op.sim 1 0 0]
      = [⟨0, 25, 55⟩, ⟨1, 29 + 0, 80 + 0⟩] := by
    simp only [runOps, List.foldl_cons, List.foldl_nil, runOp, on_message,
      parseTwo_accept, ingest, if_pos (show inBounds 25 55 by decide),
      simStep, safe_append, dequeAppend, MAX_POINTS]
    norm_num
  refine C10_store_bounds_invariant [Op.msg 0 "25.0,55.0", Op.sim 1 0 0] ?_
    (Sample.mk 1 (29 + 0) (80 + 0)) ?_
  · intro op hop
    rcases List.mem_cons.mp hop with rfl | hop
    · trivial
    · rcases List.mem_cons.mp hop with rfl | hop
      · exact ⟨by norm_num, by norm_num, by norm_num, by norm_num⟩
      · cases hop
  · rw [hrun]
    simp
